import Mathlib

/-!
# Verification of the audioMotion-analyzer (TypeScript port) frequency-mapping core

Shallow embedding of the algorithmic core of `src/audiomotion-analyzer.ts` and of the
`Modes.drawBarsLines` routine: frequency/bin conversion, the equal-tempered scale, the
octave-band and discrete-frequency bar-geometry builders, the LED geometry, the per-bar
and global peak/decay state machines, `getEnergy`, and the frequency-range setters.

Modelling conventions:
* JavaScript numbers are modelled as exact rationals (`ℚ`) where the source only performs
  field operations, comparisons and floor/round/trunc, and as exact reals where the source
  takes logarithms.  Tempered-scale frequencies `C0 * ROOT24 ** k = 440·2^((k-114)/24)` are
  irrational; they are represented exactly by the structure `TF` below (value `a·2^(e/24)`),
  with all comparisons and floors decided exactly through 24-th powers, so that the geometry
  builders remain executable.  A separate real-valued semantics (`TF.val`) connects this
  representation to the source's formulas.
* `Math.floor`/`Math.round`/`x | 0` become `Int.floor`, `⌊x + 1/2⌋` and truncation.
* Code paths that throw a JavaScript `TypeError` (reading a property of `undefined`) are
  modelled by `Option`/`none`.
* Mutation of the analyzer object becomes explicit state passing; setters that `throw`
  return `Except.error` without producing a new state.
-/

set_option maxRecDepth 1000000

attribute [local semireducible] Rat.mul Rat.add Rat.inv Rat.sub

/-- `Math.round`: half-up rounding (`Math.round(-0.5) = 0`), i.e. `⌊x + 1/2⌋`. -/
def jsRound (q : ℚ) : ℤ := ⌊q + 1/2⌋

/-- JavaScript `x | 0` on a (finite) number: truncation toward zero. -/
def jsTrunc (q : ℚ) : ℤ := if q < 0 then -⌊-q⌋ else ⌊q⌋

/-!
## Peak/decay state machines (`Modes.drawBarsLines` and `_draw`)

Per bar and channel the source keeps `value`, `peak` and `hold`; the global energy keeps
`val`, `peak`, `hold`.  Both are driven once per animation frame.
-/

/-- The mutable per-frame state `{ value, peak, hold }` of one bar/channel, and likewise of
the global `_energy` object (there `value` is the field `val`).  Amplitudes are normalised
(0..1 in normal operation); `hold` is a signed frame counter. -/
structure PeakState where
  value : ℚ
  peak : ℚ
  hold : ℤ
  deriving Repr, DecidableEq

/-- One frame of the per-bar peak update from `Modes.drawBarsLines` (src/unnamed/part_000,
lines 41-56), given `maxBarHeight` `H` and the freshly computed normalised `barHeight` `b`:

    bar.value[channel] = barHeight;
    if (bar.peak[channel] > 0) {
      bar.hold[channel]--;
      // if hold is negative, it becomes the "acceleration" for peak drop
      if (bar.hold[channel] < 0)
        bar.peak[channel] += bar.hold[channel] / maxBarHeight;
    }
    if (barHeight >= bar.peak[channel]) {
      bar.peak[channel] = barHeight;
      bar.hold[channel] = 30;
    }
-/
def barFrame (H b : ℚ) (s : PeakState) : PeakState :=
  let h1 : ℤ := if 0 < s.peak then s.hold - 1 else s.hold
  let p1 : ℚ := if 0 < s.peak ∧ h1 < 0 then s.peak + (h1 : ℚ) / H else s.peak
  if p1 ≤ b then ⟨b, b, 30⟩ else ⟨b, p1, h1⟩

/-- One frame of the global energy update from `_draw` (src/src/audiomotion-analyzer.ts,
lines 1063-1074), given the freshly computed frame energy `v`:

    energy.val = currentEnergy / (nBars << isStereo);
    if (energy.val >= energy.peak) {
      energy.peak = energy.val;
      energy.hold = 30;
    }
    else {
      if (energy.hold > 0)
        energy.hold--;
      else if (energy.peak > 0)
        energy.peak *= (30 + energy.hold--) / 30; // decay (drops to zero in 30 frames)
    }

(the `--` is a post-decrement: the factor uses the old `hold`). -/
def energyFrame (v : ℚ) (s : PeakState) : PeakState :=
  if s.peak ≤ v then ⟨v, v, 30⟩
  else if 0 < s.hold then ⟨v, s.peak, s.hold - 1⟩
  else if 0 < s.peak then ⟨v, s.peak * ((30 + (s.hold : ℚ)) / 30), s.hold - 1⟩
  else ⟨v, s.peak, s.hold⟩

/-- FFT data interpolation helper from `_draw`:
`interpolate = (bin, ratio) => fftData[bin] + (fftData[bin + 1] - fftData[bin]) * ratio`.
The byte array is modelled as a function `ℕ → ℚ` (the draw loop only indexes it with
natural bin indices). -/
def interpolate (fft : ℕ → ℚ) (bin : ℕ) (ratio : ℚ) : ℚ :=
  fft bin + (fft (bin + 1) - fft bin) * ratio

/-- The normalised bar amplitude computed at the top of `Modes.drawBarsLines`: the maximum
of the two interpolated edge values and of the raw FFT samples strictly between `binLo` and
`binHi`, divided by 255. -/
def barHeightOf (fft : ℕ → ℚ) (binLo binHi : ℕ) (ratioLo ratioHi : ℚ) : ℚ :=
  let base := max (interpolate fft binLo ratioLo) (interpolate fft binHi ratioHi)
  ((List.range' (binLo + 1) (binHi - (binLo + 1))).foldl (fun m j => max m (fft j)) base) / 255

/-!
## Frequency/bin conversion (`_freqToBin` and the `binToFreq` helper of `_calcBars`)
-/

/-- The rounding policy argument of `_freqToBin` (`'floor' | 'round' | 'ceil'`,
default `'round'`). -/
inductive Rounding
  | floor
  | round
  | ceil
  deriving Repr, DecidableEq

/-- `Math[rounding]` as an exact operation on rationals. -/
def Rounding.apply : Rounding → ℚ → ℤ
  | .floor, q => ⌊q⌋
  | .round, q => jsRound q
  | .ceil, q => ⌈q⌉

/-- `_freqToBin` (src/src/audiomotion-analyzer.ts, lines 1133-1138):

    const max = this._analyzer[0].frequencyBinCount - 1,
      bin = Math[rounding](freq * this.fftSize / this.audioCtx.sampleRate);
    return bin < max ? bin : max;

`frequencyBinCount = fftSize / 2`.  Note that the source clamps only from above. -/
def freqToBin (fs sr : ℕ) (freq : ℚ) (rnd : Rounding) : ℤ :=
  let mx : ℤ := ((fs / 2 : ℕ) : ℤ) - 1
  let bin := rnd.apply (freq * fs / sr)
  if bin < mx then bin else mx

/-- The `binToFreq` helper of `_calcBars` (line 529):
`bin => bin * this.audioCtx.sampleRate / this.fftSize || 1` — the `|| 1` replaces the
falsy value `0` (i.e. bin 0) by 1 Hz. -/
def binToFreq (fs sr : ℕ) (bin : ℕ) : ℚ :=
  let v : ℚ := (bin : ℚ) * sr / fs
  if v = 0 then 1 else v

/-!
## Mode constants (`_calcAux`, `_calcBars`, the `mode` setter)
-/

/-- The per-mode grouping array of `_calcBars` (line 580):
`[0, 1, 2, 3, 4, 6, 8, 12, 24]` — "number of notes grouped per band for each mode".
It has entries for indices 0..8 only. -/
def stepsArr : List ℕ := [0, 1, 2, 3, 4, 6, 8, 12, 24]

/-- The `steps` value looked up for a mode; `none` models the JavaScript `undefined`
produced by an out-of-bounds array read (in particular for mode 10). -/
def stepsOfMode (mode : ℕ) : Option ℕ := stepsArr.get? mode

/-- `_calcAux` (line 484): `this._isOctaveBands = this._mode % 10 != 0`. -/
def isOctaveBands (mode : ℕ) : Bool := mode % 10 != 0

/-- The validity test of the `mode` setter (line 1545):
`mode >= 0 && mode <= 10 && mode != 9`. -/
def modeValid (mode : ℤ) : Bool := decide (0 ≤ mode) && decide (mode ≤ 10) && mode != 9

/-!
## LED geometry (`_calcLeds`, default branch)
-/

/-- The output quadruple `this._leds = [ledCount, spaceH, spaceV, ledHeight]`. -/
structure LedConf where
  count : ℤ
  spaceH : ℚ
  spaceV : ℚ
  ledHeight : ℚ
  deriving Repr, DecidableEq

/-- The default per-mode LED parameter table of `_calcLeds` (lines 691-700); each row is
`(maxLeds, spaceVRatio, spaceHRatio)`.  `none` for modes without a row (the source stores
an empty array at index 0 and nothing at indices 9/10). -/
def ledParamsTable (mode : ℕ) : Option (ℕ × ℚ × ℚ) :=
  if mode = 1 then some (128, 3, 45/100)
  else if mode = 2 then some (128, 4, 225/1000)
  else if mode = 3 then some (96, 6, 225/1000)
  else if mode = 4 then some (80, 6, 225/1000)
  else if mode = 5 then some (80, 6, 125/1000)
  else if mode = 6 then some (64, 6, 125/1000)
  else if mode = 7 then some (48, 8, 125/1000)
  else if mode = 8 then some (24, 16, 125/1000)
  else none

/-- The default (no custom `_ledParams`) branch of `_calcLeds` for one table row
`(maxLeds, spaceVRatio, spaceHRatio)` (lines 706-738):

    const refRatio = 540 / spaceVRatio;
    spaceV = Math.min(spaceVRatio * dPR, Math.max(2, analyzerHeight / refRatio + .1 | 0));
    if (this._maximizeLeds) analyzerHeight += spaceV;
    ledCount = Math.min(maxLeds, analyzerHeight / (spaceV * 2) | 0);
    this._leds = [ledCount, spaceH, spaceV, analyzerHeight / ledCount - spaceV];

In the model `ledHeight` uses rational division, which yields `0` for `ledCount = 0`
(JavaScript yields `Infinity` there); the theorems about `ledHeight` are stated under
hypotheses that force `ledCount ≥ 1`, where the two semantics agree. -/
def ledsFromRow (row : ℕ × ℚ × ℚ) (analyzerHeight dPR barWidth : ℚ)
    (maximizeLeds : Bool) : LedConf :=
  let maxLeds : ℕ := row.1
  let rowV : ℚ := row.2.1
  let rowH : ℚ := row.2.2
  let refR : ℚ := 540 / rowV
  let spaceV : ℚ := min (rowV * dPR) (max 2 ((jsTrunc (analyzerHeight / refR + 1/10) : ℤ) : ℚ))
  let h2 : ℚ := if maximizeLeds then analyzerHeight + spaceV else analyzerHeight
  let ledCount : ℤ := min (maxLeds : ℤ) (jsTrunc (h2 / (spaceV * 2)))
  { count := ledCount
    spaceH := if 1 ≤ rowH then rowH else barWidth * rowH
    spaceV := spaceV
    ledHeight := h2 / (ledCount : ℚ) - spaceV }

/-- `_calcLeds` with default parameters for the given octave-band mode. -/
def calcLeds (mode : ℕ) (analyzerHeight dPR barWidth : ℚ) (maximizeLeds : Bool) :
    Option LedConf :=
  (ledParamsTable mode).map fun row => ledsFromRow row analyzerHeight dPR barWidth maximizeLeds

/-!
## Frequency-range setters (`setFreqRange`, `minFreq`/`maxFreq` setters)
-/

/-- Error codes thrown at the configuration boundary (class `AudioMotionError`). -/
inductive AMError
  | frequencyTooLow  -- 'ERR_FREQUENCY_TOO_LOW'
  | invalidMode      -- 'ERR_INVALID_MODE'
  deriving Repr, DecidableEq

/-- The slice of analyzer state relevant to the frequency-range setters: the stored
bounds plus the derived geometry (of arbitrary type `G`, rebuilt by `_calcBars`). -/
structure FreqState (G : Type) where
  minFreq : ℚ
  maxFreq : ℚ
  geometry : G

/-- `setFreqRange(min, max)` (lines 371-379).  The throw happens before any assignment;
on success the bounds are swapped into order and `_calcBars()` (abstracted as `rebuild`)
recomputes the geometry.  An `Except.error` result models the synchronous throw, with no
new state produced. -/
def setFreqRange {G : Type} (rebuild : FreqState G → FreqState G) (mn mx : ℚ)
    (st : FreqState G) : Except AMError (FreqState G) :=
  if mn < 1 ∨ mx < 1 then .error .frequencyTooLow
  else .ok (rebuild { st with minFreq := min mn mx, maxFreq := max mn mx })

/-- The `minFreq` setter (lines 1521-1528): throws for `value < 1`, otherwise stores the
value and calls `_calcBars()`. -/
def setMinFreq {G : Type} (rebuild : FreqState G → FreqState G) (v : ℚ)
    (st : FreqState G) : Except AMError (FreqState G) :=
  if v < 1 then .error .frequencyTooLow
  else .ok (rebuild { st with minFreq := v })

/-- The `maxFreq` setter (lines 1501-1508), symmetric to `minFreq`. -/
def setMaxFreq {G : Type} (rebuild : FreqState G → FreqState G) (v : ℚ)
    (st : FreqState G) : Except AMError (FreqState G) :=
  if v < 1 then .error .frequencyTooLow
  else .ok (rebuild { st with maxFreq := v })

/-!
## `getEnergy` (lines 290-324)
-/

/-- A number of the form `a · 2^(e/24)` (`a : ℚ`, `e : ℤ`). -/
structure TF where
  a : ℚ
  e : ℤ
  deriving Repr, DecidableEq

/-- Embed a rational (e.g. a `binToFreq` value substituted for a band edge). -/
def TF.ofRat (q : ℚ) : TF := ⟨q, 0⟩

/-- Decide `value > q` (the loop's `freqHi > maxFreq`).  For `a > 0` and `q ≥ 0` this is
`q^24 < a^24·2^e`; the other sign combinations are handled directly. -/
def TF.gtq (x : TF) (q : ℚ) : Bool :=
  if 0 < x.a then decide (q < 0) || decide (q ^ 24 < x.a ^ 24 * 2 ^ x.e)
  else if x.a = 0 then decide (q < 0)
  else decide (q < 0) && decide (x.a ^ 24 * 2 ^ x.e < q ^ 24)

/-- Decide `value ≥ q` (the loop's `freqLo >= minFreq`). -/
def TF.geq (x : TF) (q : ℚ) : Bool :=
  if 0 < x.a then decide (q ≤ 0) || decide (q ^ 24 ≤ x.a ^ 24 * 2 ^ x.e)
  else if x.a = 0 then decide (q ≤ 0)
  else decide (q < 0) && decide (x.a ^ 24 * 2 ^ x.e ≤ q ^ 24)

/-- Fueled binary search for `⌊v^(1/24)⌋`: maintains `lo^24 ≤ v < hi^24` and narrows the
bracket until `hi = lo + 1`. -/
def bsFloor (v : ℚ) : ℕ → ℕ → ℕ → ℕ
  | lo, _, 0 => lo
  | lo, hi, fuel + 1 =>
    if hi ≤ lo + 1 then lo
    else
      let mid := (lo + hi) / 2
      if ((mid : ℚ)) ^ 24 ≤ v then bsFloor v mid hi fuel else bsFloor v lo mid fuel

/-- `⌊A · 2^(r/24)⌋` for `0 < A`, `0 ≤ r < 24`: the unique `n` with
`n^24 ≤ A^24·2^r < (n+1)^24`, found between `⌊A⌋` and `2⌊A⌋ + 2 > 2A` (since
`2^(r/24) < 2`).  The `A ≤ 0` guard keeps the function total; callers pass `A > 0`. -/
def floorA24 (A : ℚ) (r : ℕ) : ℕ :=
  if A ≤ 0 then 0
  else
    let lo := ⌊A⌋.toNat
    bsFloor (A ^ 24 * 2 ^ r) lo (2 * lo + 2) (2 * lo + 2)

/-- `Math.floor(f · c)` for a positive `f = a·2^(e/24)` and rational `c > 0`, by writing
`e = 24·(e ediv 24) + (e emod 24)` so that `f·c = (a·c·2^(e ediv 24)) · 2^((e emod 24)/24)`. -/
def TF.floorMul (f : TF) (c : ℚ) : ℕ :=
  floorA24 (f.a * c * 2 ^ (Int.ediv f.e 24)) (Int.emod f.e 24).toNat

/-!
## The equal-tempered scale (`_calcBars`, lines 563-576)
-/

/-- A number of the form `p + c·2^(e/24)`: the exact shape of the interpolation ratios
`(freq - binFreq) / (nextFreq - binFreq)` (with `freq` irrational and the two bin
frequencies rational).  The builder never computes with ratios — it only stores them or
overwrites them with the literal 0, represented by `RL.zero`. -/
structure RL where
  p : ℚ
  c : ℚ
  e : ℤ
  deriving Repr, DecidableEq

/-- The literal ratio 0. -/
def RL.zero : RL := ⟨0, 0, 0⟩

/-- One record `{ freq, bin, ratio }` pushed to `temperedScale`. -/
structure TSEntry where
  freq : TF
  bin : ℕ
  ratio : RL
  deriving Repr, DecidableEq

/-- Entry `k = octave*24 + note` of the tempered scale:

    const freq = C0 * ROOT24 ** (octave * 24 + note),
      bin = this._freqToBin(freq, 'floor'),
      binFreq = binToFreq(bin),
      nextFreq = binToFreq(bin + 1),
      ratio = (freq - binFreq) / (nextFreq - binFreq);

`freq = 440·2^((k-114)/24)` is stored in the normal form `(440·2^((k-114) ediv 24))·2^(r/24)`
with `r = (k-114) emod 24 ∈ [0, 24)`; `_freqToBin(freq, 'floor')` is
`min(frequencyBinCount - 1, ⌊freq·fs/sr⌋)` (`freq > 0`, so no lower clamp is needed), and
the ratio `(freq - binFreq)/d` is stored as `-binFreq/d + (440·2^((k-114) ediv 24)/d)·2^(r/24)`. -/
def temperedEntry (fs sr : ℕ) (k : ℕ) : TSEntry :=
  let e : ℤ := (k : ℤ) - 114
  let a : ℚ := 440 * 2 ^ (Int.ediv e 24)
  let r : ℤ := Int.emod e 24
  let freq : TF := ⟨a, r⟩
  let bin : ℕ := min (fs / 2 - 1) (freq.floorMul ((fs : ℚ) / sr))
  let binF := binToFreq fs sr bin
  let nextF := binToFreq fs sr (bin + 1)
  let d := nextF - binF
  ⟨freq, bin, ⟨-binF / d, a / d, r⟩⟩

/-- The full 264-entry scale (11 octaves × 24 notes, `k = octave*24 + note`). -/
def temperedScaleL (fs sr : ℕ) : List TSEntry :=
  (List.range 264).map (temperedEntry fs sr)

/-!
## Bar geometry (`_calcBars`)
-/

/-- One bar as pushed by `barsPush` (line 530).  The zero-initialised runtime fields
(`value: [0]`, `peak: [0,0]`, `hold: [0]`) are modelled separately by `PeakState`. -/
structure Bar where
  posX : ℚ
  binLo : ℕ
  binHi : ℕ
  freqLo : TF
  freqHi : TF
  ratioLo : RL
  ratioHi : RL
  deriving Repr, DecidableEq

/-- The configuration read by the octave-band branch. -/
structure OctCfg where
  fs : ℕ
  sr : ℕ
  minFreq : ℚ
  maxFreq : ℚ
  deriving Repr

/-- The bar-emission step of the octave-band loop (lines 598-627), executed when
`freqLo >= minFreq`: unused-bin redistribution against the previous bar (when the gap
`diff = binLo - prevBar.binHi` exceeds 1, the previous bar's high edge takes
`binLo - (diff >> 1)` with its interpolation disabled, the previous bar's low-edge
interpolation is disabled when it no longer borders the bar before it, and the current
bar starts at the bin following the previous bar's new high edge), then the low-edge
interpolation of the new bar is disabled when its low bin is not shared, and the bar is
appended. -/
def pushBar (cfg : OctCfg) (bars : List Bar) (elo ehi : TSEntry) : List Bar :=
  match bars.getLast? with
  | none => bars ++ [⟨0, elo.bin, ehi.bin, elo.freq, ehi.freq, elo.ratio, ehi.ratio⟩]
  | some prev =>
    let step1 : Bar × ℕ :=
      if prev.binHi + 1 < elo.bin then
        let newHi := elo.bin - (elo.bin - prev.binHi) / 2
        let prev1 : Bar :=
          { prev with
              binHi := newHi
              ratioHi := RL.zero
              freqHi := TF.ofRat (binToFreq cfg.fs cfg.sr newHi) }
        let cond2 : Bool := decide (1 < bars.length) &&
          decide (prev1.binLo < prev1.binHi) &&
          (match bars.dropLast.getLast? with
           | some pp => decide (pp.binHi < prev1.binLo)
           | none => false)
        let prev2 : Bar :=
          if cond2 then
            { prev1 with
                ratioLo := RL.zero
                freqLo := TF.ofRat (binToFreq cfg.fs cfg.sr prev1.binLo) }
          else prev1
        (prev2, newHi + 1)
      else (prev, elo.bin)
    let prevF := step1.1
    let bLo := step1.2
    let edge : RL × TF :=
      if bLo < ehi.bin ∧ prevF.binHi < bLo then
        (RL.zero, TF.ofRat (binToFreq cfg.fs cfg.sr bLo))
      else (elo.ratio, elo.freq)
    bars.dropLast ++ [prevF, ⟨0, bLo, ehi.bin, edge.2, ehi.freq, edge.1, ehi.ratio⟩]

/-- The octave-band generation loop (lines 582-628) over the list of chunk end pairs
`(temperedScale[index], temperedScale[index + steps - 1])`.  The cutoff
(`freqHi > maxFreq || binHi >= fftSize/2`) gives the previous bar one extra bin and
disables its high-edge interpolation; `none` models the TypeError thrown when the cutoff
is reached while no bar has been emitted (`bars[-1]` is `undefined`). -/
def octLoop (cfg : OctCfg) : List (TSEntry × TSEntry) → List Bar → Option (List Bar)
  | [], bars => some bars
  | (elo, ehi) :: rest, bars =>
    if ehi.freq.gtq cfg.maxFreq || decide (cfg.fs / 2 ≤ ehi.bin) then
      match bars.getLast? with
      | none => none
      | some prev =>
        some (bars.dropLast ++
          [{ prev with
               binHi := prev.binHi + 1
               ratioHi := RL.zero
               freqHi := TF.ofRat (binToFreq cfg.fs cfg.sr (prev.binHi + 1)) }])
    else
      if elo.freq.geq cfg.minFreq then octLoop cfg rest (pushBar cfg bars elo ehi)
      else octLoop cfg rest bars

/-- Fueled worker for `chunkPairs` (structural recursion on the fuel, which starts at the
list length; each step drops `steps ≥ 1` elements, so the fuel never runs out). -/
def chunkPairsF (steps : ℕ) : ℕ → List TSEntry → Option (List (TSEntry × TSEntry))
  | _, [] => some []
  | 0, _ :: _ => none
  | fuel + 1, e :: rest =>
    if steps = 0 then none
    else
      match (e :: rest).get? (steps - 1), chunkPairsF steps fuel (rest.drop (steps - 1)) with
      | some ehi, some tail => some ((e, ehi) :: tail)
      | _, _ => none

/-- The chunk list visited by `for (index = 0; index < temperedScale.length; index += steps)`
with band ends `ts[index]` and `ts[index + steps - 1]`.  `none` models the TypeError from
destructuring `temperedScale[index + steps - 1]` when the read is out of bounds, and the
non-progressing loop for `steps = 0` (not reachable: mode 0 takes the discrete branch). -/
def chunkPairs (steps : ℕ) (l : List TSEntry) : Option (List (TSEntry × TSEntry)) :=
  chunkPairsF steps l.length l

/-- The octave-band branch of `_calcBars` (lines 539-636) for a given `steps` value:
build the tempered scale, run the loop from an empty bar list, then assign
`posX = initialX + index * barWidth` with `barWidth = analyzerWidth / bars.length`.
`none` models a thrown TypeError — from the loop, or from
`Math.log10(bars[0].freqLo)` when the loop emitted no bar.  The stored `minLog`/`logWidth`
(used only by the label scales) are outside the bar list and not modelled. -/
def calcBarsOctave (cfg : OctCfg) (steps : ℕ) (analyzerWidth initialX : ℚ) :
    Option (List Bar) :=
  match chunkPairs steps (temperedScaleL cfg.fs cfg.sr) with
  | none => none
  | some chunks =>
    match octLoop cfg chunks [] with
    | none => none
    | some bars =>
      if bars.isEmpty then none
      else some (bars.enum.map fun ib =>
        { ib.2 with posX := initialX + ib.1 * (analyzerWidth / (bars.length : ℚ)) })

/-!
## Discrete-frequencies branch of `_calcBars` (lines 637-665)
-/

/-- The discrete-frequencies loop:

    let lastPos = -999;
    for (let i = minIndex; i <= maxIndex; i++) {
      const freq = binToFreq(i),
        pos = initialX + Math.round(logWidth * (Math.log10(freq) - minLog));
      if (pos > lastPos) {
        barsPush(pos, i, i, freq, freq, 0, 0);
        lastPos = pos;
      }
      else if (bars.length) {
        bars[bars.length - 1].binHi = i;
        bars[bars.length - 1].freqHi = freq;
      }
    }

parametrised by the integer position function `posF` (which absorbs `initialX` and the
real-valued logarithms; `posRealF` below is the source's formula) and the bin-frequency
function `freqF`. -/
def discLoop (posF : ℕ → ℤ) (freqF : ℕ → ℚ) :
    List ℕ → List Bar → ℤ → List Bar
  | [], bars, _ => bars
  | i :: rest, bars, lastPos =>
    let pos := posF i
    if lastPos < pos then
      discLoop posF freqF rest
        (bars ++ [⟨(pos : ℚ), i, i, TF.ofRat (freqF i), TF.ofRat (freqF i), RL.zero, RL.zero⟩])
        pos
    else
      match bars.getLast? with
      | some last =>
        discLoop posF freqF rest
          (bars.dropLast ++ [{ last with binHi := i, freqHi := TF.ofRat (freqF i) }]) lastPos
      | none => discLoop posF freqF rest bars lastPos

/-- The discrete branch over the bin range `[minIdx, maxIdx]` (empty when
`maxIdx < minIdx`), starting from an empty bar list and the sentinel `lastPos = -999`. -/
def calcBarsDiscrete (posF : ℕ → ℤ) (freqF : ℕ → ℚ) (minIdx maxIdx : ℕ) : List Bar :=
  discLoop posF freqF (List.range' minIdx (maxIdx + 1 - minIdx)) [] (-999)

/-- Configuration read by the discrete branch. -/
structure DiscCfg where
  fs : ℕ
  sr : ℕ
  minFreq : ℚ
  maxFreq : ℚ
  analyzerWidth : ℚ
  initialX : ℤ

/-- `Math.round` on reals. -/
noncomputable def jsRoundR (x : ℝ) : ℤ := ⌊x + 1/2⌋

/-- The source's position formula
`pos = initialX + Math.round(logWidth * (Math.log10(freq) - minLog))` with
`minLog = Math.log10(minFreq)` and
`logWidth = analyzerWidth / (Math.log10(maxFreq) - minLog)`. -/
noncomputable def posRealF (cfg : DiscCfg) (i : ℕ) : ℤ :=
  cfg.initialX + jsRoundR
    ((cfg.analyzerWidth / (Real.logb 10 (cfg.maxFreq : ℝ) - Real.logb 10 (cfg.minFreq : ℝ))) *
      (Real.logb 10 ((binToFreq cfg.fs cfg.sr i : ℚ) : ℝ) - Real.logb 10 (cfg.minFreq : ℝ)))

/-- `minIndex = this._freqToBin(minFreq, 'floor')` (nonnegative for `minFreq ≥ 1`). -/
def minIdxOf (cfg : DiscCfg) : ℤ := freqToBin cfg.fs cfg.sr cfg.minFreq .floor

/-- `maxIndex = this._freqToBin(maxFreq)` (default rounding `'round'`). -/
def maxIdxOf (cfg : DiscCfg) : ℤ := freqToBin cfg.fs cfg.sr cfg.maxFreq .round

/-- The discrete branch with the source's real-log position function and bin range. -/
noncomputable def calcBarsDiscreteReal (cfg : DiscCfg) : List Bar :=
  calcBarsDiscrete (posRealF cfg) (binToFreq cfg.fs cfg.sr)
    (minIdxOf cfg).toNat (maxIdxOf cfg).toNat

/-- Bin `k` lies in the inclusive bin range of bar `b`. -/
def binHits (k : ℕ) (b : Bar) : Bool := decide (b.binLo ≤ k) && decide (k ≤ b.binHi)

/-!
## Concrete instances used by counterexamples and witnesses
-/

/-- A frequency-range configuration with a small FFT (`fftSize = 32`,
`frequencyBinCount = 16`) and a low sample rate, with the default frequency range. -/
def octCfg32 : OctCfg := ⟨32, 22050, 20, 22000⟩

/-- The default configuration (`fftSize = 8192`, `sampleRate = 44100`, range 20-22000). -/
def octCfg8k : OctCfg := ⟨8192, 44100, 20, 22000⟩

/-- A concrete bar, used as the previous bar in the redistribution witness. -/
def barW : Bar := ⟨0, 0, 2, TF.ofRat 1, TF.ofRat 1, RL.zero, RL.zero⟩

/-- A concrete scale entry with bin `b`. -/
def entryW (b : ℕ) : TSEntry := ⟨TF.ofRat ((b : ℚ) + 1), b, RL.zero⟩

/-- The discrete-branch configuration of the C6 counterexample: a very narrow frequency
range (1000-1001 Hz) with a coarse FFT, making `logWidth` huge. -/
def discCfgCx : DiscCfg := ⟨32, 44100, 1000, 1001, 800, 0⟩

/-- The chunk list of the default configuration at mode 4 (`steps = 4`), used by the C1
witness. -/
def chunksW : List (TSEntry × TSEntry) :=
  (chunkPairs 4 (temperedScaleL octCfg8k.fs octCfg8k.sr)).getD []

/-- The bar list of the default configuration at mode 4, width 800, used by the C1
witness. -/
def barsW : List Bar := (calcBarsOctave octCfg8k 4 800 0).getD []

/-!
## Theorems
-/

/-- Auxiliary: folding `max` of an all-zero sample function over any index list keeps 0. -/
theorem foldl_max_zero (l : List ℕ) :
    l.foldl (fun m (_ : ℕ) => max m (0 : ℚ)) 0 = 0 := by
  induction l with
  | nil => rfl
  | cons a t ih => simpa [List.foldl] using ih

/-- **C2** counterexample.  For a bar with `peak = 1/2`, `hold = 0`, zero input and
`maxBarHeight = 270`, the source's per-bar update yields `peak = 1/2 - 1/270 = 67/135`,
which is neither `1/2·(30+0)/30` nor `1/2·(30-1)/30`: the per-bar decay is additive, not
the multiplicative `(30 + hold)/30` law the claim asserts. -/
theorem C2_counterexample :
    barFrame 270 0 ⟨0, 1/2, 0⟩ = ⟨0, 67/135, -1⟩ ∧
    (67/135 : ℚ) ≠ 1/2 * ((30 + 0) / 30) ∧
    (67/135 : ℚ) ≠ 1/2 * ((30 - 1) / 30) := by
  refine ⟨?_, by norm_num, by norm_num⟩
  decide

/-- **C2** (amended).  Exact per-frame semantics of both peak trackers.  For a bar
(any channel) with `maxBarHeight = H > 0`, new value `b`, and state `⟨w, p, h⟩`:
*holding* (`p > 0`, `h > 0`, `b` below peak) leaves the peak and decrements `hold`;
*decaying* (`p > 0`, `h ≤ 0`) decrements `hold` below zero and **adds** `hold/maxBarHeight`
to the peak (an additive, accelerating drop — not the multiplicative law);
*rising* (`b ≥ p`) snaps the peak to `b` and resets `hold` to 30.
The multiplicative `(30 + hold)/30` decay law holds for the **global energy** tracker:
*holding* decrements `hold`; *decaying* multiplies the peak by `(30 + hold)/30` (using the
pre-decrement `hold`) and keeps decrementing `hold` as a negative counter; *rising*
(`v ≥ p`) snaps the peak to `v` and resets `hold` to 30. -/
theorem C2_amended (H b v w p : ℚ) (h : ℤ) (hH : 0 < H) :
    (0 < p → 0 < h → b < p → barFrame H b ⟨w, p, h⟩ = ⟨b, p, h - 1⟩) ∧
    (0 < p → h ≤ 0 → b < p + ((h - 1 : ℤ) : ℚ) / H →
      barFrame H b ⟨w, p, h⟩ = ⟨b, p + ((h - 1 : ℤ) : ℚ) / H, h - 1⟩) ∧
    (p ≤ b → barFrame H b ⟨w, p, h⟩ = ⟨b, b, 30⟩) ∧
    (v < p → 0 < h → energyFrame v ⟨w, p, h⟩ = ⟨v, p, h - 1⟩) ∧
    (v < p → h ≤ 0 → 0 < p →
      energyFrame v ⟨w, p, h⟩ = ⟨v, p * ((30 + (h : ℚ)) / 30), h - 1⟩) ∧
    (p ≤ v → energyFrame v ⟨w, p, h⟩ = ⟨v, v, 30⟩) := by
  refine ⟨?_, ?_, ?_, ?_, ?_, ?_⟩
  · intro hp hh hb
    have hd : ¬(0 < p ∧ h - 1 < 0) := fun hc => absurd hc.2 (by omega)
    simp only [barFrame]
    rw [if_pos hp, if_neg hd, if_neg (not_le.mpr hb)]
  · intro hp hh hb
    have hd : 0 < p ∧ h - 1 < 0 := ⟨hp, by omega⟩
    simp only [barFrame]
    rw [if_pos hp, if_pos hd, if_neg (not_le.mpr hb)]
  · intro hb
    simp only [barFrame]
    by_cases hp : 0 < p
    · rw [if_pos hp]
      by_cases hd : 0 < p ∧ h - 1 < 0
      · rw [if_pos hd, if_pos]
        have hneg : ((h - 1 : ℤ) : ℚ) / H < 0 :=
          div_neg_of_neg_of_pos (by exact_mod_cast hd.2) hH
        linarith
      · rw [if_neg hd, if_pos hb]
    · have hd : ¬(0 < p ∧ h < 0) := fun hc => hp hc.1
      rw [if_neg hp, if_neg hd, if_pos hb]
  · intro hv hh
    simp only [energyFrame]
    rw [if_neg (not_le.mpr hv), if_pos hh]
  · intro hv hh hp
    simp only [energyFrame]
    rw [if_neg (not_le.mpr hv), if_neg (not_lt.mpr hh), if_pos hp]
  · intro hv
    simp only [energyFrame]
    rw [if_pos hv]

/-- **C2** witness: the amended theorem applied at the concrete decaying-state input
`H = 270`, `b = 0`, `p = 1/2`, `h = 0` gives the additive drop `1/2 - 1/270 = 67/135`. -/
theorem C2_witness : barFrame 270 0 ⟨0, 1/2, 0⟩ = ⟨0, 67/135, -1⟩ :=
  (((C2_amended 270 0 0 0 (1/2) 0 (by norm_num)).2.1
    (by norm_num) (by decide) (by decide)).trans (by decide))

/-- **C5** counterexample.  Starting right after a peak was registered
(`peak = 1`, `hold = 30`) and feeding zero input, after exactly 30 frames the global
energy peak and a bar's peak (with `maxBarHeight = 270`) are still `1`, not `0`: the 30
frames are consumed entirely by the hold phase. -/
theorem C5_counterexample :
    ((energyFrame 0)^[30] ⟨1, 1, 30⟩).peak = 1 ∧
    ((barFrame 270 0)^[30] ⟨1, 1, 30⟩).peak = 1 ∧ (1 : ℚ) ≠ 0 := by
  refine ⟨by decide, by decide, by norm_num⟩

/-- **C5** (amended).  Under all-zero FFT input every bar's computed value is 0 on every
frame; starting from a registered peak (`peak = 1`, `hold = 30`) the global energy peak is
unchanged after the 30 hold frames and reaches exactly 0 only after 61 zero-input frames
(30 hold frames plus 31 multiplicative decay frames, the last factor being
`(30 - 30)/30 = 0`), while a bar's peak (with `maxBarHeight = 270`) decays additively and
is clamped to exactly 0 on frame 53 (the first frame where the accumulated drop
`m(m+1)/(2·270)` reaches 1), not after 30 frames. -/
theorem C5_amended :
    (∀ (binLo binHi : ℕ) (rl rh : ℚ), barHeightOf (fun _ => 0) binLo binHi rl rh = 0) ∧
    ((energyFrame 0)^[30] ⟨1, 1, 30⟩).peak = 1 ∧
    ((energyFrame 0)^[60] ⟨1, 1, 30⟩).peak ≠ 0 ∧
    ((energyFrame 0)^[61] ⟨1, 1, 30⟩).peak = 0 ∧
    ((barFrame 270 0)^[52] ⟨1, 1, 30⟩).peak ≠ 0 ∧
    ((barFrame 270 0)^[53] ⟨1, 1, 30⟩).peak = 0 := by
  refine ⟨?_, by decide, by decide, by decide, by decide, by decide⟩
  intro binLo binHi rl rh
  have h1 : interpolate (fun _ => 0) binLo rl = 0 := by simp [interpolate]
  have h2 : interpolate (fun _ => 0) binHi rh = 0 := by simp [interpolate]
  unfold barHeightOf
  rw [h1, h2, max_self]
  show List.foldl (fun m (_ : ℕ) => max m (0 : ℚ)) 0
      (List.range' (binLo + 1) (binHi - (binLo + 1))) / 255 = 0
  rw [foldl_max_zero]
  norm_num

/-- **C5** witness: the zero-input bar value evaluated at a concrete bar. -/
theorem C5_witness : barHeightOf (fun _ => 0) 3 7 (1/3) (2/3) = 0 :=
  C5_amended.1 3 7 (1/3) (2/3)

/-- **C3** counterexample.  `10 % 10 == 0`, so `_isOctaveBands` is **false** for mode 10:
contrary to the claim, mode 10 does not select the octave-band algorithm (and the steps
array has no entry at index 10 anyway).  Mode 10 is handled by the discrete-frequency
branch. -/
theorem C3_counterexample : isOctaveBands 10 = false ∧ stepsOfMode 10 = none := by
  exact ⟨by decide, by decide⟩

/-- **C3** (amended).  Among the valid modes (0..10 without 9), the octave-band algorithm
(`mode % 10 != 0`) is selected exactly for modes 1..8; mode 10 — accepted by the `mode`
setter — selects the discrete-frequency (line-graph) branch, like mode 0.  The per-mode
steps constants for modes 1..8 are 1, 2, 3, 4, 6, 8, 12, 24. -/
theorem C3_amended :
    (∀ m : Fin 11, m.val ≠ 9 →
      (isOctaveBands m.val = true ↔ m.val ∈ [1, 2, 3, 4, 5, 6, 7, 8])) ∧
    isOctaveBands 10 = false ∧ modeValid 10 = true ∧
    stepsOfMode 1 = some 1 ∧ stepsOfMode 2 = some 2 ∧ stepsOfMode 3 = some 3 ∧
    stepsOfMode 4 = some 4 ∧ stepsOfMode 5 = some 6 ∧ stepsOfMode 6 = some 8 ∧
    stepsOfMode 7 = some 12 ∧ stepsOfMode 8 = some 24 := by
  decide

/-- **C3** witness: the amended selection criterion applied at mode 3. -/
theorem C3_witness : isOctaveBands 3 = true :=
  (C3_amended.1 ⟨3, by decide⟩ (by decide)).mpr (by decide)

/-- **C8** counterexample.  For `fftSize = 32768`, `sampleRate = 44100`, bin 0 maps to
1 Hz (`|| 1`), and `frequencyToBin(1, 'round') = round(32768/44100) = 1 ≠ 0`: the
round-trip fails at bin 0 whenever `fftSize / sampleRate ≥ 1/2`. -/
theorem C8_counterexample :
    freqToBin 32768 44100 (binToFreq 32768 44100 0) .round = 1 ∧ (1 : ℤ) ≠ 0 := by
  exact ⟨by decide, by decide⟩

/-- **C8** (amended).  The round-trip `frequencyToBin(binToFreq(b), 'round') = b` holds
for every bin `b ≥ 1` with `b ≤ frequencyBinCount - 1` and every positive
`fftSize`/`sampleRate` pair; bin 0 is excluded because it is remapped to 1 Hz by the
`|| 1` in `binToFreq`, which round-trips only when `fftSize < sampleRate / 2`. -/
theorem C8_amended (fs sr b : ℕ) (hfs : 0 < fs) (hsr : 0 < sr)
    (hb1 : 1 ≤ b) (hb2 : (b : ℤ) ≤ ((fs / 2 : ℕ) : ℤ) - 1) :
    freqToBin fs sr (binToFreq fs sr b) .round = b := by
  have hfsq : (0 : ℚ) < fs := by exact_mod_cast hfs
  have hsrq : (0 : ℚ) < sr := by exact_mod_cast hsr
  have hbq : (1 : ℚ) ≤ b := by exact_mod_cast hb1
  have hv : ((b : ℚ) * sr / fs) ≠ 0 := by positivity
  have harg : (b : ℚ) * sr / fs * fs / sr = (b : ℚ) := by field_simp
  have hround : jsRound (b : ℚ) = b := by
    unfold jsRound
    rw [Int.floor_eq_iff]
    constructor
    · push_cast; linarith
    · push_cast; linarith
  unfold freqToBin binToFreq
  rw [if_neg hv, harg]
  show (if jsRound (b : ℚ) < ((fs / 2 : ℕ) : ℤ) - 1 then jsRound (b : ℚ)
    else ((fs / 2 : ℕ) : ℤ) - 1) = b
  rw [hround]
  rcases lt_or_eq_of_le hb2 with h | h
  · rw [if_pos h]
  · rw [if_neg (by omega), h]

/-- **C8** witness: the amended round-trip at `fftSize = 8192`, `sampleRate = 44100`,
bin 100. -/
theorem C8_witness : freqToBin 8192 44100 (binToFreq 8192 44100 100) .round = 100 :=
  C8_amended 8192 44100 100 (by decide) (by decide) (by decide) (by decide)

/-- **C9**: passing a frequency bound below 1 Hz to `setFreqRange` or to the
`minFreq`/`maxFreq` setters raises `ERR_FREQUENCY_TOO_LOW` synchronously; no new state is
produced, so the stored bounds and the previously built geometry are untouched (the
rebuild function is never invoked). -/
theorem C9_reject_low_freq {G : Type} (rebuild : FreqState G → FreqState G)
    (st : FreqState G) (mn mx v : ℚ) :
    (mn < 1 ∨ mx < 1 → setFreqRange rebuild mn mx st = .error .frequencyTooLow) ∧
    (v < 1 → setMinFreq rebuild v st = .error .frequencyTooLow) ∧
    (v < 1 → setMaxFreq rebuild v st = .error .frequencyTooLow) := by
  refine ⟨fun h => ?_, fun h => ?_, fun h => ?_⟩
  · unfold setFreqRange; rw [if_pos h]
  · unfold setMinFreq; rw [if_pos h]
  · unfold setMaxFreq; rw [if_pos h]

/-- **C9** witness: the claim's concrete scenario `minFreq = 0.5` is rejected, for a
concrete state and the identity rebuild. -/
theorem C9_witness :
    setFreqRange (G := ℕ) id (1/2) 22000 ⟨20, 22000, 0⟩ = .error .frequencyTooLow :=
  (C9_reject_low_freq id ⟨20, 22000, 0⟩ (1/2) 22000 0).1 (Or.inl (by norm_num))

/-- Auxiliary: `x | 0` agrees with `Math.floor` on nonnegative inputs. -/
theorem jsTrunc_nonneg_eq_floor (q : ℚ) (hq : 0 ≤ q) : jsTrunc q = ⌊q⌋ :=
  if_neg (not_lt.mpr hq)

/-- Auxiliary: every row of the default LED table has `maxLeds ≥ 1` and a positive
vertical spacing ratio. -/
theorem ledParamsTable_pos (m : ℕ) (row : ℕ × ℚ × ℚ)
    (h : ledParamsTable m = some row) : 1 ≤ row.1 ∧ 0 < row.2.1 := by
  unfold ledParamsTable at h
  split_ifs at h <;> simp_all <;> norm_num [← h]

/-- **C7** counterexample.  For mode 1, `analyzerHeight = 2`, pixel ratio 1 and no LED
maximisation, the default LED computation yields `ledCount = 0` (spaceV = 2,
`(2 / 4) | 0 = 0`), violating the claimed `ledCount ≥ 1` (`ledHeight` is then a division
by zero — `Infinity` in JavaScript). -/
theorem C7_counterexample :
    (calcLeds 1 2 1 1 false).map LedConf.count = some 0 ∧ ¬ (1 : ℤ) ≤ 0 := by
  exact ⟨by decide, by decide⟩

/-- **C7** (amended).  For every mode with a default LED table row (exactly modes 1..8),
every `analyzerHeight ≥ 0` and every pixel ratio `dPR > 0`: the computed `spaceV` is
positive and at least `min(2, spaceVRatio·dPR)` (the absolute 2-px floor only applies when
`spaceVRatio·dPR ≥ 2`), and **whenever the (possibly maximised) height is at least
`2·spaceV`** the LED count is at least 1 and `ledHeight ≥ spaceV > 0`.  For smaller
heights `ledCount` can be 0 (see the counterexample), so the claim's unconditional bounds
need this height proviso. -/
theorem C7_amended (mode : ℕ) (row : ℕ × ℚ × ℚ) (h dPR bw : ℚ) (maximize : Bool)
    (hrow : ledParamsTable mode = some row) (hdPR : 0 < dPR) :
    ∃ led : LedConf, calcLeds mode h dPR bw maximize = some led ∧
      0 < led.spaceV ∧
      min 2 (row.2.1 * dPR) ≤ led.spaceV ∧
      (2 * led.spaceV ≤ (if maximize then h + led.spaceV else h) →
        1 ≤ led.count ∧ led.spaceV ≤ led.ledHeight) := by
  obtain ⟨hL, hrv⟩ := ledParamsTable_pos mode row hrow
  refine ⟨ledsFromRow row h dPR bw maximize, by unfold calcLeds; rw [hrow]; rfl, ?_, ?_, ?_⟩
  · show 0 < min (row.2.1 * dPR)
      (max 2 ((jsTrunc (h / (540 / row.2.1) + 1/10) : ℤ) : ℚ))
    exact lt_min (mul_pos hrv hdPR) (lt_of_lt_of_le two_pos (le_max_left _ _))
  · show min 2 (row.2.1 * dPR) ≤ min (row.2.1 * dPR)
      (max 2 ((jsTrunc (h / (540 / row.2.1) + 1/10) : ℤ) : ℚ))
    exact le_min (min_le_right _ _) ((min_le_left _ _).trans (le_max_left _ _))
  · intro hs2
    set t : ℚ := ((jsTrunc (h / (540 / row.2.1) + 1/10) : ℤ) : ℚ) with htdef
    set s : ℚ := min (row.2.1 * dPR) (max 2 t) with hsdef
    have hs0 : 0 < s := lt_min (mul_pos hrv hdPR) (lt_of_lt_of_le two_pos (le_max_left _ _))
    set h2 : ℚ := if maximize then h + s else h with hh2def
    have hs2' : 2 * s ≤ h2 := hs2
    have hq1 : (1 : ℚ) ≤ h2 / (s * 2) := by
      rw [le_div_iff₀ (by positivity)]
      linarith
    have htr : jsTrunc (h2 / (s * 2)) = ⌊h2 / (s * 2)⌋ :=
      jsTrunc_nonneg_eq_floor _ (by linarith)
    have hfl1 : (1 : ℤ) ≤ ⌊h2 / (s * 2)⌋ := Int.le_floor.mpr (by exact_mod_cast hq1)
    have hcount : (1 : ℤ) ≤ min (row.1 : ℤ) (jsTrunc (h2 / (s * 2))) := by
      rw [htr]
      exact le_min (by exact_mod_cast hL) hfl1
    set c : ℤ := min (row.1 : ℤ) (jsTrunc (h2 / (s * 2))) with hcdef
    have hcq : (1 : ℚ) ≤ (c : ℚ) := by exact_mod_cast hcount
    constructor
    · exact hcount
    · show s ≤ h2 / (c : ℚ) - s
      have hcle : (c : ℚ) ≤ h2 / (s * 2) := by
        have : c ≤ ⌊h2 / (s * 2)⌋ := by rw [hcdef, htr]; exact min_le_right _ _
        calc (c : ℚ) ≤ (⌊h2 / (s * 2)⌋ : ℚ) := by exact_mod_cast this
          _ ≤ h2 / (s * 2) := Int.floor_le _
      have hmul : (c : ℚ) * (s * 2) ≤ h2 := by
        rw [← le_div_iff₀ (by positivity)]
        exact hcle
      have h2div : 2 * s ≤ h2 / (c : ℚ) := by
        rw [le_div_iff₀ (by linarith)]
        linarith [hmul]
      linarith

/-- **C7** witness: the amended theorem at mode 1, `analyzerHeight = 540`, `dPR = 1`,
with maximisation; there `spaceV = 3`, the height proviso holds, and `ledCount ≥ 1` with
`ledHeight ≥ spaceV` follow. -/
theorem C7_witness :
    ∃ led : LedConf, calcLeds 1 540 1 1 true = some led ∧
      0 < led.spaceV ∧
      min 2 ((3 : ℚ) * 1) ≤ led.spaceV ∧
      (2 * led.spaceV ≤ (if true then (540 : ℚ) + led.spaceV else 540) →
        1 ≤ led.count ∧ led.spaceV ≤ led.ledHeight) :=
  C7_amended 1 (128, 3, 45/100) 540 1 1 true (by decide) (by norm_num)

/-- **C4**: the unused-bin redistribution step.  Whenever a bar is emitted whose `binLo`
is more than one past the previous bar's `binHi` (`diff = binLo - prevBar.binHi > 1`),
the previous bar's high edge becomes `binLo - (diff >> 1)` — i.e. it is extended by
`diff - diff/2` bins, half the gap with odd gaps rounding in the previous bar's favour —
its high-edge interpolation is disabled (`ratioHi = 0`) and its `freqHi` recomputed; the
emitted bar starts at the bin immediately after, so the consecutive pair satisfies
`next.binLo = prev.binHi + 1`; the emitted bar's low-edge interpolation is disabled
exactly when that edge no longer borders the high edge (`binLo < binHi`), and the
previous bar's low-edge interpolation is disabled when it no longer borders the bar
before it. -/
theorem C4_redistribution (cfg : OctCfg) (pre : List Bar) (prev : Bar) (elo ehi : TSEntry)
    (hgap : prev.binHi + 1 < elo.bin) :
    ∃ prev' newBar : Bar,
      pushBar cfg (pre ++ [prev]) elo ehi = pre ++ [prev', newBar] ∧
      prev'.binHi = elo.bin - (elo.bin - prev.binHi) / 2 ∧
      prev'.binHi - prev.binHi = (elo.bin - prev.binHi) - (elo.bin - prev.binHi) / 2 ∧
      prev.binHi < prev'.binHi ∧ prev'.binHi < elo.bin ∧
      prev'.binLo = prev.binLo ∧
      prev'.ratioHi = RL.zero ∧
      prev'.freqHi = TF.ofRat (binToFreq cfg.fs cfg.sr prev'.binHi) ∧
      newBar.binLo = prev'.binHi + 1 ∧
      newBar.binHi = ehi.bin ∧ newBar.ratioHi = ehi.ratio ∧ newBar.freqHi = ehi.freq ∧
      (newBar.binLo < ehi.bin →
        newBar.ratioLo = RL.zero ∧
        newBar.freqLo = TF.ofRat (binToFreq cfg.fs cfg.sr newBar.binLo)) ∧
      (ehi.bin ≤ newBar.binLo → newBar.ratioLo = elo.ratio ∧ newBar.freqLo = elo.freq) ∧
      (∀ pp ∈ pre.getLast?, prev.binLo < prev'.binHi → pp.binHi < prev.binLo →
        prev'.ratioLo = RL.zero) ∧
      (pre = [] → prev'.ratioLo = prev.ratioLo ∧ prev'.freqLo = prev.freqLo) := by
  unfold pushBar
  rw [List.getLast?_concat, List.dropLast_concat]
  simp only [if_pos hgap]
  have hbinHi :
      ∀ c : Bool, ∀ x y : Bar, x.binHi = y.binHi → ((if c then x else y) : Bar).binHi = y.binHi := by
    intro c x y hxy
    cases c <;> simp [hxy]
  refine ⟨_, _, rfl, ?_, ?_, ?_, ?_, ?_, ?_, ?_, ?_, ?_, ?_, ?_, ?_, ?_, ?_, ?_⟩
  · split <;> rfl
  · have h : ∀ z : Bar, z.binHi = elo.bin - (elo.bin - prev.binHi) / 2 →
        z.binHi - prev.binHi = (elo.bin - prev.binHi) - (elo.bin - prev.binHi) / 2 := by
      intro z hz
      omega
    apply h
    split <;> rfl
  · have h : elo.bin - (elo.bin - prev.binHi) / 2 = elo.bin - (elo.bin - prev.binHi) / 2 := rfl
    have : prev.binHi < elo.bin - (elo.bin - prev.binHi) / 2 := by omega
    show prev.binHi < _
    convert this using 1
    split <;> rfl
  · have : elo.bin - (elo.bin - prev.binHi) / 2 < elo.bin := by omega
    show _ < elo.bin
    convert this using 1
    split <;> rfl
  · split <;> rfl
  · split <;> rfl
  · show _ = TF.ofRat (binToFreq cfg.fs cfg.sr _)
    split <;> rfl
  · show _ + 1 = _ + 1
    congr 1
    split <;> rfl
  · rfl
  · rfl
  · rfl
  · intro hlt
    have hcond : elo.bin - (elo.bin - prev.binHi) / 2 + 1 < ehi.bin ∧
        (if (decide (1 < (pre ++ [prev]).length) &&
            decide (prev.binLo < elo.bin - (elo.bin - prev.binHi) / 2) &&
            match pre.getLast? with
            | some pp => decide (pp.binHi < prev.binLo)
            | none => false) = true then
          { prev with
              binHi := elo.bin - (elo.bin - prev.binHi) / 2
              ratioHi := RL.zero
              freqHi := TF.ofRat (binToFreq cfg.fs cfg.sr (elo.bin - (elo.bin - prev.binHi) / 2))
              ratioLo := RL.zero
              freqLo := TF.ofRat (binToFreq cfg.fs cfg.sr prev.binLo) }
        else
          { prev with
              binHi := elo.bin - (elo.bin - prev.binHi) / 2
              ratioHi := RL.zero
              freqHi := TF.ofRat (binToFreq cfg.fs cfg.sr (elo.bin - (elo.bin - prev.binHi) / 2)) }).binHi
          < elo.bin - (elo.bin - prev.binHi) / 2 + 1 := by
      constructor
      · exact hlt
      · have : (elo.bin - (elo.bin - prev.binHi) / 2) < elo.bin - (elo.bin - prev.binHi) / 2 + 1 := by omega
        convert this using 1
        split <;> rfl
    rw [if_pos]
    · exact ⟨rfl, rfl⟩
    · constructor
      · exact hcond.1
      · exact hcond.2
  · intro hle
    have hle' : ehi.bin ≤ elo.bin - (elo.bin - prev.binHi) / 2 + 1 := hle
    rw [if_neg]
    · exact ⟨rfl, rfl⟩
    · rintro ⟨h1, -⟩
      omega
  · intro pp hpp h1 h2
    have hne : pre ≠ [] := by
      intro h
      rw [h] at hpp
      simp at hpp
    have hlen : 1 < (pre ++ [prev]).length := by
      simp [List.length_append]
      cases pre with
      | nil => exact absurd rfl hne
      | cons a t => simp
    have h1' : prev.binLo < elo.bin - (elo.bin - prev.binHi) / 2 := by
      have : (if (decide (1 < (pre ++ [prev]).length) &&
          decide (prev.binLo < elo.bin - (elo.bin - prev.binHi) / 2) &&
          match pre.getLast? with
          | some pp => decide (pp.binHi < prev.binLo)
          | none => false) = true then
            ({ prev with
                binHi := elo.bin - (elo.bin - prev.binHi) / 2
                ratioHi := RL.zero
                freqHi := TF.ofRat (binToFreq cfg.fs cfg.sr (elo.bin - (elo.bin - prev.binHi) / 2))
                ratioLo := RL.zero
                freqLo := TF.ofRat (binToFreq cfg.fs cfg.sr prev.binLo) } : Bar)
          else
            { prev with
                binHi := elo.bin - (elo.bin - prev.binHi) / 2
                ratioHi := RL.zero
                freqHi := TF.ofRat (binToFreq cfg.fs cfg.sr (elo.bin - (elo.bin - prev.binHi) / 2)) }).binHi
          = elo.bin - (elo.bin - prev.binHi) / 2 := by
        split <;> rfl
      rw [this] at h1
      exact h1
    have hcond : (decide (1 < (pre ++ [prev]).length) &&
        decide (prev.binLo < elo.bin - (elo.bin - prev.binHi) / 2) &&
        match pre.getLast? with
        | some pp => decide (pp.binHi < prev.binLo)
        | none => false) = true := by
      rw [Option.mem_def] at hpp
      rw [hpp]
      have hpos : 0 < pre.length := List.length_pos.mpr hne
      simp [hlen, h1', h2, hpos]
    rw [if_pos hcond]
  · intro hpre
    have hcond : (decide (1 < (pre ++ [prev]).length) &&
        decide (prev.binLo < elo.bin - (elo.bin - prev.binHi) / 2) &&
        match pre.getLast? with
        | some pp => decide (pp.binHi < prev.binLo)
        | none => false) = false := by
      subst hpre
      simp
    rw [if_neg (by rw [hcond]; exact Bool.false_ne_true)]
    exact ⟨rfl, rfl⟩

/-- **C4** witness: redistribution applied to a previous bar ending at bin 2 and an
incoming band starting at bin 7 (gap 5): the previous bar is extended to bin
`7 - (5 >> 1) = 5` and the new bar starts at bin 6. -/
theorem C4_witness :
    ∃ prev' newBar : Bar,
      pushBar octCfg32 [barW] (entryW 7) (entryW 9) = [prev', newBar] ∧
      prev'.binHi = 5 ∧ newBar.binLo = 6 := by
  obtain ⟨p, n, heq, h1, -, -, -, -, -, -, h8, -⟩ :=
    C4_redistribution octCfg32 [] barW (entryW 7) (entryW 9) (by decide)
  refine ⟨p, n, heq, h1, ?_⟩
  rw [h8, h1]
  decide

/-- Auxiliary: the invariant of the discrete-frequencies loop.  Starting from a bar list
whose `posX` are strictly increasing and bounded by `lastPos`, whose bin ranges are
well-formed, consecutive, and end right before the next index `a`, the loop over
`[a, a+n)` preserves all of it; moreover the head bar's `binLo` is unchanged and the last
bar ends at `a + n - 1`. -/
theorem discLoop_inv (posF : ℕ → ℤ) (freqF : ℕ → ℚ) :
    ∀ (n a : ℕ) (bars : List Bar) (lastPos : ℤ),
      (bars.map Bar.posX).Pairwise (· < ·) →
      (∀ b ∈ bars, b.posX ≤ (lastPos : ℚ)) →
      (∀ b ∈ bars, b.binLo ≤ b.binHi ∧ b.binHi < a) →
      List.Chain' (fun b c => c.binLo = b.binHi + 1) bars →
      (∀ m, bars.getLast?.map Bar.binHi = some m → m + 1 = a) →
      ((discLoop posF freqF (List.range' a n) bars lastPos).map Bar.posX).Pairwise (· < ·) ∧
      (∀ b ∈ discLoop posF freqF (List.range' a n) bars lastPos,
          b.binLo ≤ b.binHi ∧ b.binHi < a + n) ∧
      List.Chain' (fun b c => c.binLo = b.binHi + 1)
        (discLoop posF freqF (List.range' a n) bars lastPos) ∧
      (bars ≠ [] →
        (discLoop posF freqF (List.range' a n) bars lastPos).head?.map Bar.binLo =
          bars.head?.map Bar.binLo ∧
        (discLoop posF freqF (List.range' a n) bars lastPos).getLast?.map
            (fun b => b.binHi + 1) = some (a + n)) := by
  intro n
  induction n with
  | zero =>
    intro a bars lastPos hpw hle hbins hchain hlast
    have hred : discLoop posF freqF (List.range' a 0) bars lastPos = bars := rfl
    rw [hred]
    refine ⟨hpw, fun b hb => by simpa using (hbins b hb), hchain, fun hne => ⟨rfl, ?_⟩⟩
    rw [List.getLast?_eq_getLast _ hne]
    have h2 := hlast ((bars.getLast hne).binHi)
      (by rw [List.getLast?_eq_getLast _ hne]; rfl)
    simp only [Option.map_some', Option.some.injEq]
    omega
  | succ n ih =>
    intro a bars lastPos hpw hle hbins hchain hlast
    rw [List.range'_succ a n 1]
    by_cases hpos : lastPos < posF a
    · -- push branch
      set newB : Bar :=
        ⟨((posF a : ℤ) : ℚ), a, a, TF.ofRat (freqF a), TF.ofRat (freqF a), RL.zero, RL.zero⟩
        with hnewB
      have hred : discLoop posF freqF (a :: List.range' (a + 1) n) bars lastPos =
          discLoop posF freqF (List.range' (a + 1) n) (bars ++ [newB]) (posF a) := by
        simp only [discLoop]
        rw [if_pos hpos]
      have hpw' : ((bars ++ [newB]).map Bar.posX).Pairwise (· < ·) := by
        rw [List.map_append, List.pairwise_append]
        refine ⟨hpw, by simp, ?_⟩
        intro x hx y hy
        simp only [List.map_cons, List.map_nil, List.mem_singleton] at hy
        subst hy
        obtain ⟨b, hb, rfl⟩ := List.mem_map.mp hx
        calc b.posX ≤ (lastPos : ℚ) := hle b hb
          _ < ((posF a : ℤ) : ℚ) := by exact_mod_cast hpos
      have hle' : ∀ b ∈ bars ++ [newB], b.posX ≤ ((posF a : ℤ) : ℚ) := by
        intro b hb
        rcases List.mem_append.mp hb with hb | hb
        · calc b.posX ≤ (lastPos : ℚ) := hle b hb
            _ ≤ ((posF a : ℤ) : ℚ) := by exact_mod_cast hpos.le
        · rw [List.mem_singleton.mp hb]
      have hbins' : ∀ b ∈ bars ++ [newB], b.binLo ≤ b.binHi ∧ b.binHi < a + 1 := by
        intro b hb
        rcases List.mem_append.mp hb with hb | hb
        · have := hbins b hb
          omega
        · rw [List.mem_singleton.mp hb]
          exact ⟨le_refl a, Nat.lt_succ_self a⟩
      have hchain' : List.Chain' (fun b c => c.binLo = b.binHi + 1) (bars ++ [newB]) := by
        rw [List.chain'_append]
        refine ⟨hchain, by simp, ?_⟩
        intro x hx y hy
        simp only [List.head?_cons, Option.mem_def, Option.some.injEq] at hy
        subst hy
        show newB.binLo = x.binHi + 1
        have := hlast x.binHi (by rw [Option.mem_def] at hx; rw [hx]; rfl)
        show a = x.binHi + 1
        omega
      have hlast' : ∀ m, ((bars ++ [newB]).getLast?.map Bar.binHi) = some m → m + 1 = a + 1 := by
        intro m hm
        rw [List.getLast?_concat] at hm
        simp only [Option.map_some', Option.some.injEq] at hm
        show m + 1 = a + 1
        have : newB.binHi = a := rfl
        omega
      obtain ⟨ih1, ih2, ih3, ih4⟩ := ih (a + 1) (bars ++ [newB]) (posF a) hpw' hle' hbins' hchain' hlast'
      obtain ⟨ih41, ih42⟩ := ih4 (by simp)
      rw [hred]
      refine ⟨ih1, ?_, ih3, fun hne => ⟨?_, ?_⟩⟩
      · intro b hb
        have := ih2 b hb
        omega
      · rw [ih41, List.head?_append_of_ne_nil _ hne]
      · rw [ih42]
        congr 1
        omega
    · -- no new bar: extend the last one, or drop the bin when no bars exist
      rcases List.eq_nil_or_concat bars with hbe | ⟨l, last, rfl⟩
      · subst hbe
        have hred : discLoop posF freqF (a :: List.range' (a + 1) n) [] lastPos =
            discLoop posF freqF (List.range' (a + 1) n) [] lastPos := by
          simp only [discLoop]
          rw [if_neg hpos]
          rfl
        obtain ⟨ih1, ih2, ih3, ih4⟩ := ih (a + 1) [] lastPos (by simp) (by simp) (by simp)
          (by simp) (by simp)
        rw [hred]
        refine ⟨ih1, ?_, ih3, fun hne => absurd rfl hne⟩
        intro b hb
        have := ih2 b hb
        omega
      · simp only [List.concat_eq_append] at hpw hle hbins hchain hlast ⊢
        set upd : Bar := { last with binHi := a, freqHi := TF.ofRat (freqF a) } with hupd
        have hred : discLoop posF freqF (a :: List.range' (a + 1) n) (l ++ [last]) lastPos =
            discLoop posF freqF (List.range' (a + 1) n) (l ++ [upd]) lastPos := by
          simp only [discLoop]
          rw [if_neg hpos, List.getLast?_concat, List.dropLast_concat]
        have hlastbin := hlast last.binHi (by rw [List.getLast?_concat]; rfl)
        have hlastmem : last ∈ l ++ [last] := List.mem_append_right _ (List.mem_singleton.mpr rfl)
        have hpw' : ((l ++ [upd]).map Bar.posX).Pairwise (· < ·) := by
          have : (l ++ [upd]).map Bar.posX = (l ++ [last]).map Bar.posX := by
            rw [List.map_append, List.map_append]
            rfl
          rw [this]
          exact hpw
        have hle' : ∀ b ∈ l ++ [upd], b.posX ≤ (lastPos : ℚ) := by
          intro b hb
          rcases List.mem_append.mp hb with hb | hb
          · exact hle b (List.mem_append_left _ hb)
          · rw [List.mem_singleton.mp hb]
            exact hle last hlastmem
        have hbins' : ∀ b ∈ l ++ [upd], b.binLo ≤ b.binHi ∧ b.binHi < a + 1 := by
          intro b hb
          rcases List.mem_append.mp hb with hb | hb
          · have := hbins b (List.mem_append_left _ hb)
            omega
          · rw [List.mem_singleton.mp hb]
            have := hbins last hlastmem
            show last.binLo ≤ a ∧ a < a + 1
            omega
        have hchain' : List.Chain' (fun b c => c.binLo = b.binHi + 1) (l ++ [upd]) := by
          rw [List.chain'_append]
          obtain ⟨c1, -, c3⟩ := List.chain'_append.mp hchain
          refine ⟨c1, by simp, ?_⟩
          intro x hx y hy
          simp only [List.head?_cons, Option.mem_def, Option.some.injEq] at hy
          subst hy
          show last.binLo = x.binHi + 1
          exact c3 x hx last (by simp)
        have hlast' : ∀ m, ((l ++ [upd]).getLast?.map Bar.binHi) = some m → m + 1 = a + 1 := by
          intro m hm
          rw [List.getLast?_concat] at hm
          simp only [Option.map_some', Option.some.injEq] at hm
          show m + 1 = a + 1
          have : upd.binHi = a := rfl
          omega
        obtain ⟨ih1, ih2, ih3, ih4⟩ := ih (a + 1) (l ++ [upd]) lastPos hpw' hle' hbins' hchain' hlast'
        obtain ⟨ih41, ih42⟩ := ih4 (by simp)
        rw [hred]
        refine ⟨ih1, ?_, ih3, fun hne => ⟨?_, ?_⟩⟩
        · intro b hb
          have := ih2 b hb
          omega
        · rw [ih41]
          cases l with
          | nil => rfl
          | cons x t => rfl
        · rw [ih42]
          congr 1
          omega

/-- Auxiliary: in a consecutive chain of well-formed bars, every bar after the head starts
strictly above the head's `binHi`. -/
theorem chain_lo_gt :
    ∀ (b : Bar) (t : List Bar),
      List.Chain' (fun b c => c.binLo = b.binHi + 1) (b :: t) →
      (∀ c ∈ b :: t, c.binLo ≤ c.binHi) →
      ∀ c ∈ t, b.binHi < c.binLo := by
  intro b t
  induction t generalizing b with
  | nil => intro _ _ c hc; cases hc
  | cons c t' ih =>
    intro hchain hwf d hd
    have hbc : c.binLo = b.binHi + 1 := (List.chain'_cons.mp hchain).1
    rcases List.mem_cons.mp hd with rfl | hd
    · omega
    · have hct' := ih c (List.chain'_cons.mp hchain).2
        (fun x hx => hwf x (List.mem_cons_of_mem b hx))
      have hcd := hct' d hd
      have hcw := hwf c (List.mem_cons_of_mem b (List.mem_cons_self c t'))
      omega

/-- Auxiliary: a consecutive chain of well-formed bars running from `s` to `e` contains
every bin `k ∈ [s, e]` in exactly one bar. -/
theorem chain_countP (k : ℕ) :
    ∀ (bars : List Bar),
      List.Chain' (fun b c => c.binLo = b.binHi + 1) bars →
      (∀ b ∈ bars, b.binLo ≤ b.binHi) →
      ∀ s e, bars.head?.map Bar.binLo = some s →
        bars.getLast?.map Bar.binHi = some e →
        s ≤ k → k ≤ e →
        bars.countP (binHits k) = 1 := by
  intro bars
  induction bars with
  | nil => intro _ _ s e hs he _ _; simp at hs
  | cons b t iht =>
    intro hchain hwf s e hs he hsk hke
    simp only [List.head?_cons, Option.map_some', Option.some.injEq] at hs
    by_cases hkb : k ≤ b.binHi
    · have hhit : binHits k b = true := by
        unfold binHits
        simp only [Bool.and_eq_true, decide_eq_true_eq]
        omega
      rw [List.countP_cons_of_pos (binHits k) t hhit]
      have hzero : t.countP (binHits k) = 0 := by
        rw [List.countP_eq_zero]
        intro c hc
        have := chain_lo_gt b t hchain hwf c hc
        unfold binHits
        simp only [Bool.and_eq_true, decide_eq_true_eq]
        omega
      rw [hzero]
    · have hmiss : ¬ binHits k b = true := by
        unfold binHits
        simp only [Bool.and_eq_true, decide_eq_true_eq]
        omega
      rw [List.countP_cons_of_neg (binHits k) t hmiss]
      cases t with
      | nil =>
        simp at he
        omega
      | cons c t' =>
        have hbc : c.binLo = b.binHi + 1 := (List.chain'_cons.mp hchain).1
        refine iht (List.chain'_cons.mp hchain).2
          (fun x hx => hwf x (List.mem_cons_of_mem b hx)) c.binLo e ?_ ?_ ?_ hke
        · rfl
        · rw [List.getLast?_cons_cons] at he
          exact he
        · omega

/-- **C6** (amended).  For the discrete-frequencies builder with any integer position
function: the emitted bars always have pairwise distinct (strictly increasing) `posX`,
and **provided the first bin's position exceeds the `lastPos` sentinel `-999`** every FFT
bin in `[minIdx, maxIdx]` is assigned to exactly one bar.  The proviso is forced by the
sentinel: a prefix of bins whose rounded positions are ≤ -999 (possible for extreme
`logWidth`, see the counterexample) is dropped before the first bar exists. -/
theorem C6_amended (posF : ℕ → ℤ) (freqF : ℕ → ℚ) (minIdx maxIdx : ℕ)
    (hmm : minIdx ≤ maxIdx) (hfirst : -999 < posF minIdx) :
    ((calcBarsDiscrete posF freqF minIdx maxIdx).map Bar.posX).Pairwise (· < ·) ∧
    ∀ k, minIdx ≤ k → k ≤ maxIdx →
      (calcBarsDiscrete posF freqF minIdx maxIdx).countP (binHits k) = 1 := by
  have hn : maxIdx + 1 - minIdx = (maxIdx - minIdx) + 1 := by omega
  set newB : Bar := ⟨((posF minIdx : ℤ) : ℚ), minIdx, minIdx, TF.ofRat (freqF minIdx),
    TF.ofRat (freqF minIdx), RL.zero, RL.zero⟩ with hnewB
  have hred : calcBarsDiscrete posF freqF minIdx maxIdx =
      discLoop posF freqF (List.range' (minIdx + 1) (maxIdx - minIdx)) [newB] (posF minIdx) := by
    unfold calcBarsDiscrete
    rw [hn, List.range'_succ minIdx (maxIdx - minIdx) 1]
    simp only [discLoop]
    rw [if_pos hfirst]
    rfl
  obtain ⟨ih1, ih2, ih3, ih4⟩ := discLoop_inv posF freqF (maxIdx - minIdx) (minIdx + 1)
    [newB] (posF minIdx)
    (by simp)
    (by intro b hb; rw [List.mem_singleton.mp hb])
    (by
      intro b hb
      rw [List.mem_singleton.mp hb]
      exact ⟨le_refl minIdx, Nat.lt_succ_self minIdx⟩)
    (by simp)
    (by
      intro m hm
      simp only [List.getLast?_singleton, Option.map_some', Option.some.injEq] at hm
      show m + 1 = minIdx + 1
      have : newB.binHi = minIdx := rfl
      omega)
  obtain ⟨ih41, ih42⟩ := ih4 (by simp)
  rw [hred]
  refine ⟨ih1, ?_⟩
  intro k hk1 hk2
  have hg : (discLoop posF freqF (List.range' (minIdx + 1) (maxIdx - minIdx)) [newB]
      (posF minIdx)).getLast?.map Bar.binHi = some maxIdx := by
    rcases hgl : (discLoop posF freqF (List.range' (minIdx + 1) (maxIdx - minIdx)) [newB]
        (posF minIdx)).getLast? with _ | b
    · rw [hgl] at ih42
      simp at ih42
    · rw [hgl] at ih42
      simp only [Option.map_some', Option.some.injEq] at ih42
      simp only [Option.map_some', Option.some.injEq]
      omega
  refine chain_countP k _ ih3 (fun b hb => (ih2 b hb).1) minIdx maxIdx ?_ hg hk1 hk2
  rw [ih41]
  rfl

/-- **C6** witness: the amended theorem at the identity position function over bins 0..3
(bin 2 lies in exactly one bar). -/
theorem C6_witness :
    (calcBarsDiscrete (fun i => (i : ℤ)) (fun _ => 1) 0 3).countP (binHits 2) = 1 :=
  (C6_amended (fun i => (i : ℤ)) (fun _ => 1) 0 3 (by decide) (by decide)).2 2
    (by decide) (by decide)

/-- Auxiliary: `log10 1000 = 3`. -/
theorem logb_ten_1000 : Real.logb 10 1000 = 3 := by
  rw [show (1000 : ℝ) = (10 : ℝ) ^ ((3 : ℕ) : ℝ) by rw [Real.rpow_natCast]; norm_num]
  exact Real.logb_rpow (by norm_num) (by norm_num)

/-- Auxiliary: `0 < log10 1001 - 3 < 1`. -/
theorem logb_ten_1001_bounds :
    0 < Real.logb 10 1001 - 3 ∧ Real.logb 10 1001 - 3 < 1 := by
  constructor
  · have h := Real.logb_lt_logb (b := 10) (by norm_num) (by norm_num : (0:ℝ) < 1000)
      (by norm_num : (1000:ℝ) < 1001)
    rw [logb_ten_1000] at h
    linarith
  · have h : Real.logb 10 1001 < 4 := by
      rw [Real.logb_lt_iff_lt_rpow (by norm_num) (by norm_num : (0:ℝ) < 1001)]
      rw [show ((4 : ℝ)) = ((4 : ℕ) : ℝ) by norm_num, Real.rpow_natCast]
      norm_num
    linarith

/-- Auxiliary: bin 0 of the C6 counterexample configuration maps to position ≤ -999
(it is mapped to 1 Hz by `binToFreq`, and `logWidth` is huge for the 1000-1001 Hz range). -/
theorem posRealF_cx_zero : posRealF discCfgCx 0 ≤ -999 := by
  obtain ⟨hd0, hd1⟩ := logb_ten_1001_bounds
  unfold posRealF jsRoundR
  have hb0 : ((binToFreq discCfgCx.fs discCfgCx.sr 0 : ℚ) : ℝ) = 1 := by
    norm_num [binToFreq, discCfgCx]
  rw [hb0]
  have hmin : ((discCfgCx.minFreq : ℚ) : ℝ) = 1000 := by norm_num [discCfgCx]
  have hmax : ((discCfgCx.maxFreq : ℚ) : ℝ) = 1001 := by norm_num [discCfgCx]
  have hW : (discCfgCx.analyzerWidth : ℝ) = 800 := by norm_num [discCfgCx]
  have hX : (discCfgCx.initialX : ℤ) = 0 := by norm_num [discCfgCx]
  rw [hmin, hmax, hW, hX, Real.logb_one, logb_ten_1000]
  set d : ℝ := Real.logb 10 1001 - 3 with hd
  have harg : (800 : ℝ) / (Real.logb 10 1001 - 3) * (0 - 3) = -2400 / d := by
    rw [← hd]
    ring
  rw [harg]
  have hle : -2400 / d ≤ -2400 := by
    rw [div_le_iff₀ hd0]
    nlinarith
  have : (-2400 : ℝ) / d + 1 / 2 ≤ ((-999 : ℤ) : ℝ) := by
    push_cast
    linarith
  calc (0 : ℤ) + ⌊(-2400 : ℝ) / d + 1 / 2⌋ = ⌊(-2400 : ℝ) / d + 1 / 2⌋ := by ring
    _ ≤ ⌊((-999 : ℤ) : ℝ)⌋ := Int.floor_le_floor this
    _ = -999 := Int.floor_intCast _

/-- Auxiliary: bin 1 of the C6 counterexample configuration maps to a position above the
sentinel (its frequency 44100/32 Hz lies above `minFreq`, so its offset is positive). -/
theorem posRealF_cx_one : -999 < posRealF discCfgCx 1 := by
  obtain ⟨hd0, hd1⟩ := logb_ten_1001_bounds
  unfold posRealF jsRoundR
  have hb1 : ((binToFreq discCfgCx.fs discCfgCx.sr 1 : ℚ) : ℝ) = 44100 / 32 := by
    norm_num [binToFreq, discCfgCx]
  rw [hb1]
  have hmin : ((discCfgCx.minFreq : ℚ) : ℝ) = 1000 := by norm_num [discCfgCx]
  have hmax : ((discCfgCx.maxFreq : ℚ) : ℝ) = 1001 := by norm_num [discCfgCx]
  have hW : (discCfgCx.analyzerWidth : ℝ) = 800 := by norm_num [discCfgCx]
  have hX : (discCfgCx.initialX : ℤ) = 0 := by norm_num [discCfgCx]
  rw [hmin, hmax, hW, hX, logb_ten_1000]
  have hfpos : (0 : ℝ) < Real.logb 10 (44100 / 32) - 3 := by
    have h := Real.logb_lt_logb (b := 10) (by norm_num) (by norm_num : (0:ℝ) < 1000)
      (by norm_num : (1000:ℝ) < 44100 / 32)
    rw [logb_ten_1000] at h
    linarith
  have hx1 : (0 : ℝ) < 800 / (Real.logb 10 1001 - 3) * (Real.logb 10 (44100 / 32) - 3) :=
    mul_pos (div_pos (by norm_num) hd0) hfpos
  have hfl : (0 : ℤ) ≤ ⌊800 / (Real.logb 10 1001 - 3) * (Real.logb 10 (44100 / 32) - 3) + 1 / 2⌋ := by
    rw [Int.le_floor]
    push_cast
    linarith
  omega

/-- **C6** counterexample.  For `fftSize = 32`, `sampleRate = 44100`,
`minFreq = 1000`, `maxFreq = 1001`, width 800: the bin range is `[0, 1]`, but bin 0 (which
`binToFreq` maps to 1 Hz) gets the rounded position `round(-2400/log10(1.001)) ≤ -999`,
fails the `pos > lastPos` test against the `-999` sentinel while no bar exists yet, and is
silently dropped: the built list is a single bar covering bin 1 only, so not every FFT bin
in `[minBin, maxBin]` is assigned to a bar. -/
theorem C6_counterexample :
    (calcBarsDiscreteReal discCfgCx).map (fun b => (b.binLo, b.binHi)) = [(1, 1)] ∧
    (calcBarsDiscreteReal discCfgCx).countP (binHits 0) = 0 ∧
    minIdxOf discCfgCx = 0 ∧ maxIdxOf discCfgCx = 1 := by
  have hpos0 : ¬ (-999 : ℤ) < posRealF discCfgCx 0 := not_lt.mpr posRealF_cx_zero
  have hres : calcBarsDiscreteReal discCfgCx =
      [⟨((posRealF discCfgCx 1 : ℤ) : ℚ), 1, 1,
        TF.ofRat (binToFreq discCfgCx.fs discCfgCx.sr 1),
        TF.ofRat (binToFreq discCfgCx.fs discCfgCx.sr 1), RL.zero, RL.zero⟩] := by
    unfold calcBarsDiscreteReal calcBarsDiscrete
    rw [show (minIdxOf discCfgCx).toNat = 0 from by decide,
      show (maxIdxOf discCfgCx).toNat = 1 from by decide]
    rw [show List.range' 0 (1 + 1 - 0) = [0, 1] from rfl]
    simp only [discLoop]
    rw [if_neg hpos0, if_pos posRealF_cx_one]
    rfl
  refine ⟨?_, ?_, by decide, by decide⟩
  · rw [hres]
    rfl
  · rw [hres]
    rfl

/-- Auxiliary: `barsPush` preserves the octave-loop invariant
`binLo ≤ binHi < frequencyBinCount`, given a band with `binLo-bin ≤ binHi-bin` whose high
bin is below `frequencyBinCount`. -/
theorem pushBar_inv (cfg : OctCfg) (bars : List Bar) (elo ehi : TSEntry)
    (hinv : ∀ b ∈ bars, b.binLo ≤ b.binHi ∧ b.binHi < cfg.fs / 2)
    (hord : elo.bin ≤ ehi.bin) (hhi : ehi.bin < cfg.fs / 2) :
    ∀ b ∈ pushBar cfg bars elo ehi, b.binLo ≤ b.binHi ∧ b.binHi < cfg.fs / 2 := by
  intro b hb
  rcases hlast : bars.getLast? with _ | prev
  · simp only [pushBar, hlast] at hb
    rcases List.mem_append.mp hb with h | h
    · exact hinv b h
    · rw [List.mem_singleton.mp h]
      exact ⟨hord, hhi⟩
  · obtain ⟨hp1, hp2⟩ := hinv prev (List.mem_of_mem_getLast? hlast)
    simp only [pushBar, hlast] at hb
    by_cases hgap : prev.binHi + 1 < elo.bin
    · rw [if_pos hgap] at hb
      rcases List.mem_append.mp hb with h | h
      · exact hinv b (List.dropLast_subset bars h)
      · rcases List.mem_cons.mp h with rfl | h2
        · constructor
          · split
            · show prev.binLo ≤ elo.bin - (elo.bin - prev.binHi) / 2
              omega
            · show prev.binLo ≤ elo.bin - (elo.bin - prev.binHi) / 2
              omega
          · split
            · show elo.bin - (elo.bin - prev.binHi) / 2 < cfg.fs / 2
              omega
            · show elo.bin - (elo.bin - prev.binHi) / 2 < cfg.fs / 2
              omega
        · rw [List.mem_singleton.mp h2]
          constructor
          · show elo.bin - (elo.bin - prev.binHi) / 2 + 1 ≤ ehi.bin
            omega
          · exact hhi
    · rw [if_neg hgap] at hb
      rcases List.mem_append.mp hb with h | h
      · exact hinv b (List.dropLast_subset bars h)
      · rcases List.mem_cons.mp h with rfl | h2
        · exact ⟨hp1, hp2⟩
        · rw [List.mem_singleton.mp h2]
          exact ⟨hord, hhi⟩

/-- Auxiliary: the octave-band loop preserves `binLo ≤ binHi < frequencyBinCount`, and on
success yields bars satisfying `binLo ≤ binHi ≤ frequencyBinCount`, the strict bound
holding for every bar but (possibly) the last: the cutoff gives the last bar
`binHi + 1 ≤ frequencyBinCount` only. -/
theorem octLoop_inv (cfg : OctCfg) :
    ∀ (chunks : List (TSEntry × TSEntry)) (bars res : List Bar),
      (∀ p ∈ chunks, p.1.bin ≤ p.2.bin) →
      (∀ b ∈ bars, b.binLo ≤ b.binHi ∧ b.binHi < cfg.fs / 2) →
      octLoop cfg chunks bars = some res →
      (∀ b ∈ res, b.binLo ≤ b.binHi ∧ b.binHi ≤ cfg.fs / 2) ∧
      (∀ b ∈ res.dropLast, b.binHi < cfg.fs / 2) := by
  intro chunks
  induction chunks with
  | nil =>
    intro bars res hord hinv hres
    have hbr : bars = res := by simpa [octLoop] using hres
    subst hbr
    exact ⟨fun b hb => ⟨(hinv b hb).1, Nat.le_of_lt (hinv b hb).2⟩,
      fun b hb => (hinv b (List.dropLast_subset bars hb)).2⟩
  | cons p rest ih =>
    intro bars res hord hinv hres
    obtain ⟨elo, ehi⟩ := p
    simp only [octLoop] at hres
    by_cases hcut : (ehi.freq.gtq cfg.maxFreq || decide (cfg.fs / 2 ≤ ehi.bin)) = true
    · rw [if_pos hcut] at hres
      rcases hlast : bars.getLast? with _ | prev
      · rw [hlast] at hres
        exact absurd hres (by simp)
      · rw [hlast] at hres
        obtain ⟨hp1, hp2⟩ := hinv prev (List.mem_of_mem_getLast? hlast)
        have hres2 := Option.some.inj hres
        subst hres2
        constructor
        · intro b hb
          rcases List.mem_append.mp hb with h | h
          · exact ⟨(hinv b (List.dropLast_subset bars h)).1,
              Nat.le_of_lt (hinv b (List.dropLast_subset bars h)).2⟩
          · rw [List.mem_singleton.mp h]
            constructor
            · show prev.binLo ≤ prev.binHi + 1
              omega
            · show prev.binHi + 1 ≤ cfg.fs / 2
              omega
        · intro b hb
          rw [List.dropLast_concat] at hb
          exact (hinv b (List.dropLast_subset bars hb)).2
    · rw [if_neg hcut] at hres
      have hbin : ehi.bin < cfg.fs / 2 := by
        simp only [Bool.or_eq_true, decide_eq_true_eq, not_or] at hcut
        omega
      by_cases hmin : elo.freq.geq cfg.minFreq = true
      · rw [if_pos hmin] at hres
        exact ih (pushBar cfg bars elo ehi) res
          (fun q hq => hord q (List.mem_cons_of_mem _ hq))
          (pushBar_inv cfg bars elo ehi hinv
            (hord (elo, ehi) (List.mem_cons_self _ _)) hbin) hres
      · rw [if_neg hmin] at hres
        exact ih bars res (fun q hq => hord q (List.mem_cons_of_mem _ hq)) hinv hres

/-- **C1** (amended).  Octave-bands branch (under the well-ordering of the generated
chunks, which holds for every concrete configuration): every bar of a successful build
satisfies `binLo ≤ binHi ≤ frequencyBinCount`, every bar but the last satisfies the
claimed strict bound `binHi < frequencyBinCount`, and `posX` is strictly increasing when
`analyzerWidth > 0`.  The last bar only satisfies the weak bound: the cutoff adds one bin
to a high edge that `_freqToBin` already clamped to `frequencyBinCount - 1`, which can
produce `binHi = frequencyBinCount` (see the counterexample).  Discrete branch: every bar
satisfies `binLo ≤ binHi ≤ maxIndex` (and `maxIndex < frequencyBinCount` by the
`_freqToBin` clamp), with strictly increasing `posX`, for every position function. -/
theorem C1_amended (cfg : OctCfg) (steps : ℕ) (W x0 : ℚ)
    (chunks : List (TSEntry × TSEntry)) (bars : List Bar)
    (hch : chunkPairs steps (temperedScaleL cfg.fs cfg.sr) = some chunks)
    (hord : ∀ p ∈ chunks, p.1.bin ≤ p.2.bin)
    (hW : 0 < W)
    (hres : calcBarsOctave cfg steps W x0 = some bars) :
    (∀ b ∈ bars, b.binLo ≤ b.binHi ∧ b.binHi ≤ cfg.fs / 2) ∧
    (∀ b ∈ bars.dropLast, b.binHi < cfg.fs / 2) ∧
    ((bars.map Bar.posX).Pairwise (· < ·)) ∧
    (∀ (posF : ℕ → ℤ) (freqF : ℕ → ℚ) (minIdx maxIdx : ℕ),
      (∀ b ∈ calcBarsDiscrete posF freqF minIdx maxIdx,
        b.binLo ≤ b.binHi ∧ b.binHi ≤ maxIdx) ∧
      ((calcBarsDiscrete posF freqF minIdx maxIdx).map Bar.posX).Pairwise (· < ·)) := by
  simp only [calcBarsOctave, hch] at hres
  rcases hloop : octLoop cfg chunks [] with _ | res0
  · simp only [hloop] at hres
    exact absurd hres (by simp)
  simp only [hloop] at hres
  by_cases hemp : res0.isEmpty
  · rw [if_pos hemp] at hres
    exact absurd hres (by simp)
  rw [if_neg hemp] at hres
  have hbars := Option.some.inj hres
  obtain ⟨hinv1, hinv2⟩ := octLoop_inv cfg chunks [] res0 hord (by simp) hloop
  have hne : res0 ≠ [] := by
    intro h
    subst h
    exact hemp rfl
  have hlen0 : 0 < res0.length := List.length_pos.mpr hne
  refine ⟨?_, ?_, ?_, ?_⟩
  · intro b hb
    rw [← hbars] at hb
    obtain ⟨i, hi, hig⟩ := List.mem_iff_getElem.mp hb
    rw [List.getElem_map, List.getElem_enum] at hig
    have hi' : i < res0.length := by
      simpa using hi
    have hib := hinv1 _ (List.getElem_mem hi')
    subst hig
    exact hib
  · intro b hb
    rw [← hbars] at hb
    obtain ⟨i, hi, hig⟩ := List.mem_iff_getElem.mp hb
    have hi2 : i < res0.length - 1 := by
      simpa using hi
    rw [List.getElem_dropLast, List.getElem_map, List.getElem_enum] at hig
    have h3 : i < res0.dropLast.length := by
      simpa [List.length_dropLast] using hi2
    have hib := hinv2 _ (List.mem_iff_getElem.mpr ⟨i, h3, List.getElem_dropLast res0 i h3⟩)
    subst hig
    exact hib
  · rw [← hbars, List.map_map, List.pairwise_iff_getElem]
    intro i j hi hj hij
    simp only [List.length_map, List.enum_length] at hi hj
    rw [List.getElem_map, List.getElem_map, List.getElem_enum, List.getElem_enum]
    show x0 + (i : ℚ) * (W / (res0.length : ℚ)) < x0 + (j : ℚ) * (W / (res0.length : ℚ))
    have hc : 0 < W / (res0.length : ℚ) := div_pos hW (by exact_mod_cast hlen0)
    have hij2 : (i : ℚ) < (j : ℚ) := by exact_mod_cast hij
    have := mul_lt_mul_of_pos_right hij2 hc
    linarith
  · intro posF freqF minIdx maxIdx
    rcases Nat.lt_or_ge maxIdx minIdx with hlt | hge
    · have hz : maxIdx + 1 - minIdx = 0 := by omega
      have hnil : calcBarsDiscrete posF freqF minIdx maxIdx = [] := by
        unfold calcBarsDiscrete
        rw [hz]
        rfl
      rw [hnil]
      exact ⟨by simp, by simp⟩
    · obtain ⟨d1, d2, d3, d4⟩ := discLoop_inv posF freqF (maxIdx + 1 - minIdx) minIdx [] (-999)
        (by simp) (by simp) (by simp) (by simp) (by simp)
      constructor
      · intro b hb
        have hbb := d2 b hb
        exact ⟨hbb.1, by omega⟩
      · exact d1

/-- **C1** counterexample.  `fftSize = 32` (`frequencyBinCount = 16`),
`sampleRate = 22050`, the default 20-22000 Hz range, mode 8 (`steps = 24`): the
octave-band build succeeds and its last bar ends at `binHi = 16 = frequencyBinCount`
after the cutoff's extra bin — `_freqToBin` had already clamped the previous high edge to
`frequencyBinCount - 1 = 15`, so the increment escapes the claimed bound
`binHi < frequencyBinCount`. -/
theorem C1_counterexample :
    isOctaveBands 8 = true ∧
    stepsOfMode 8 = some 24 ∧
    (1 : ℚ) ≤ octCfg32.minFreq ∧ octCfg32.minFreq ≤ octCfg32.maxFreq ∧
    octCfg32.fs / 2 = 16 ∧
    ((calcBarsOctave octCfg32 24 800 0).getD []).getLast?.map Bar.binHi = some 16 := by
  refine ⟨rfl, rfl, by norm_num [octCfg32], by norm_num [octCfg32], rfl, ?_⟩
  decide

/-- **C1** witness: the amended invariant at the default configuration
(`fftSize = 8192`, `sampleRate = 44100`, 20-22000 Hz), mode 4 (`steps = 4`), width 800:
the emitted bars have strictly increasing `posX`. -/
theorem C1_witness : (barsW.map Bar.posX).Pairwise (fun a b => a < b) := by
  have hch : chunkPairs 4 (temperedScaleL octCfg8k.fs octCfg8k.sr) = some chunksW := by
    show chunkPairs 4 (temperedScaleL octCfg8k.fs octCfg8k.sr) =
      some ((chunkPairs 4 (temperedScaleL octCfg8k.fs octCfg8k.sr)).getD [])
    rcases hc : chunkPairs 4 (temperedScaleL octCfg8k.fs octCfg8k.sr) with _ | c
    · exact absurd hc (by decide)
    · rfl
  have hres : calcBarsOctave octCfg8k 4 800 0 = some barsW := by
    show calcBarsOctave octCfg8k 4 800 0 = some ((calcBarsOctave octCfg8k 4 800 0).getD [])
    rcases hr : calcBarsOctave octCfg8k 4 800 0 with _ | r
    · exact absurd hr (by decide)
    · rfl
  have hord : ∀ p ∈ chunksW, p.1.bin ≤ p.2.bin := by decide
  exact (C1_amended octCfg8k 4 800 0 chunksW barsW hch hord (by norm_num) hres).2.2.1
